import Mathlib

/-
Verification of the bandit action-selection and value-update loops of the
rl-sketchpad notebooks `0207_UCB_Bandit.ipynb` and `0208_Gradient_Bandit.ipynb`.

Shallow embedding conventions:
* numpy float arrays are `List ℝ`; machine floats are modelled as real numbers.
* The environment collaborator `env` exposes `size` and `step`; a call
  `env.step(A)` made at (0-indexed) step `t` of a run is modelled as
  `env.step t A`, so each call may return a fresh stochastic sample.
* Randomness (`np.random.choice`, `np.random.rand`, `np.random.randint`) is
  modelled by oracle functions supplied to the selector: for each step index
  they return the draw used at that step.  `np.random.choice(xs)` picking
  uniformly from a nonempty list `xs` is modelled as `xs[pick t % xs.length]`.
* Operations that raise in numpy (`arr.max()` on an empty array,
  `np.random.choice` over an empty range, `np.random.randint(0)`) are
  modelled with `Option`: `none` is an uncaught exception.
-/

/-- The environment collaborator: `size` arms; `step t a` is the reward the
environment returns for action `a` when called at step `t` of the run. -/
structure BanditEnv where
  size : ℕ
  step : ℕ → ℕ → ℝ

/-- `np.flatnonzero(arr == m)`: the indices of `arr` whose value equals `m`,
in increasing order. -/
noncomputable def tiesOf (arr : List ℝ) (m : ℝ) : List ℕ :=
  (List.range arr.length).filter (fun i => decide (arr.getD i 0 = m))

/-- `argmax_rand(arr)` from `0207_UCB_Bandit.ipynb`:
`np.random.choice(np.flatnonzero(arr == arr.max()))`.  `arr.max()` on an
empty array raises (`none`).  The uniform draw of `np.random.choice` is
modelled by the oracle value `pick`. -/
noncomputable def argmax_rand (arr : List ℝ) (pick : ℕ) : Option ℕ :=
  match arr.max? with
  | none => none
  | some m => (tiesOf arr m)[pick % (tiesOf arr m).length]?

/-- `softmax(x)` from `0208_Gradient_Bandit.ipynb`:
`ex = np.exp(x - np.max(x)); return ex / np.sum(ex)`.
`np.max` of an empty array raises (`none`). -/
noncomputable def softmax (x : List ℝ) : Option (List ℝ) :=
  match x.max? with
  | none => none
  | some m =>
    let ex := x.map (fun v => Real.exp (v - m))
    some (ex.map (fun e => e / ex.sum))

/-- The mutable state of `ucb_bandit` / `simple_bandit`: value estimates `Q`,
selection counts `N` (a float array in the source), and the two histories. -/
structure BanditState where
  Q : List ℝ
  N : List ℝ
  hist_A : List ℕ
  hist_R : List ℝ

/-- The shared loop body tail of `ucb_bandit` and `simple_bandit`:
`N[A] += 1; Q[A] += (1/N[A]) * (R - Q[A])`, then append `(A, R)` to the
histories.  `N[A]` is read after the increment, exactly as in the source. -/
noncomputable def banditUpdate (s : BanditState) (A : ℕ) (R : ℝ) : BanditState :=
  let N := s.N.set A (s.N.getD A 0 + 1)
  let Q := s.Q.set A (s.Q.getD A 0 + (1 / N.getD A 0) * (R - s.Q.getD A 0))
  ⟨Q, N, s.hist_A ++ [A], s.hist_R ++ [R]⟩

/-- `Q = np.zeros(env.size); N = np.zeros(env.size); hist_A = []; hist_R = []`. -/
def initState (k : ℕ) : BanditState :=
  ⟨List.replicate k 0, List.replicate k 0, [], []⟩

/-- The state after the first `n` iterations of the warm-up loop
`for A in range(env.size)` of `ucb_bandit` (iteration `A` is step `A` of the
run and selects action `A`). -/
noncomputable def ucbWarmupAux (env : BanditEnv) : ℕ → BanditState
  | 0 => initState env.size
  | n + 1 => banditUpdate (ucbWarmupAux env n) n (env.step n n)

/-- The score array `Q + c * np.sqrt(np.log(t) / N)` of the UCB rule,
computed elementwise over the parallel arrays `Q` and `N`. -/
noncomputable def ucbScores (c : ℝ) (t : ℕ) (Q N : List ℝ) : List ℝ :=
  List.zipWith (fun q n => q + c * Real.sqrt (Real.log t / n)) Q N

/-- One iteration of the second loop of `ucb_bandit` at step index `t`:
`A = argmax_rand(Q + c*np.sqrt(np.log(t)/N)); R = env.step(A)`, then the
shared count/value/history update. -/
noncomputable def ucbStep (env : BanditEnv) (c : ℝ) (pick : ℕ → ℕ) (t : ℕ)
    (s : BanditState) : Option BanditState :=
  match argmax_rand (ucbScores c t s.Q s.N) (pick t) with
  | none => none
  | some A => some (banditUpdate s A (env.step t A))

/-- `n` iterations of the second loop of `ucb_bandit`, starting at step
index `t`. -/
noncomputable def ucbIter (env : BanditEnv) (c : ℝ) (pick : ℕ → ℕ) :
    ℕ → ℕ → BanditState → Option BanditState
  | 0, _, s => some s
  | n + 1, t, s =>
    match ucbStep env c pick t s with
    | none => none
    | some s2 => ucbIter env c pick n (t + 1) s2

/-- `ucb_bandit(env, nb, c)` from `0207_UCB_Bandit.ipynb`: run the full
warm-up loop `for A in range(env.size)`, then the UCB loop
`for t in range(env.size, nb)` (which executes `nb - env.size` iterations,
none when `nb ≤ env.size`). -/
noncomputable def ucb_bandit (env : BanditEnv) (nb : ℕ) (c : ℝ)
    (pick : ℕ → ℕ) : Option BanditState :=
  ucbIter env c pick (nb - env.size) env.size (ucbWarmupAux env env.size)

/-- The state of `ucb_bandit` after its first `t` steps: mid-warm-up for
`t ≤ env.size`, and after `t - env.size` UCB-rule steps otherwise. -/
noncomputable def ucbAfter (env : BanditEnv) (c : ℝ) (pick : ℕ → ℕ) :
    ℕ → Option BanditState
  | 0 => some (initState env.size)
  | t + 1 =>
    if t + 1 ≤ env.size then some (ucbWarmupAux env (t + 1))
    else (ucbAfter env c pick t).bind (ucbStep env c pick t)

/-- One iteration of the loop of `simple_bandit` at step index `t`:
`A = argmax_rand(Q) if np.random.rand() > eps else np.random.randint(env.size)`,
then the shared update.  `rand t` models the `np.random.rand()` draw and
`rint t` the `np.random.randint` draw; `np.random.randint(0)` raises. -/
noncomputable def simpleStep (env : BanditEnv) (eps : ℝ) (rand : ℕ → ℝ)
    (pick rint : ℕ → ℕ) (t : ℕ) (s : BanditState) : Option BanditState :=
  let Asel : Option ℕ :=
    if eps < rand t then argmax_rand s.Q (pick t)
    else if env.size = 0 then none
    else some (rint t % env.size)
  match Asel with
  | none => none
  | some A => some (banditUpdate s A (env.step t A))

/-- `n` iterations of the `simple_bandit` loop, starting at step index `t`. -/
noncomputable def simpleIter (env : BanditEnv) (eps : ℝ) (rand : ℕ → ℝ)
    (pick rint : ℕ → ℕ) : ℕ → ℕ → BanditState → Option BanditState
  | 0, _, s => some s
  | n + 1, t, s =>
    match simpleStep env eps rand pick rint t s with
    | none => none
    | some s2 => simpleIter env eps rand pick rint n (t + 1) s2

/-- `simple_bandit(env, nb, eps)` from `0207_UCB_Bandit.ipynb`:
`for _ in range(nb)` of `simpleStep`, from the all-zero initial state. -/
noncomputable def simple_bandit (env : BanditEnv) (nb : ℕ) (eps : ℝ)
    (rand : ℕ → ℝ) (pick rint : ℕ → ℕ) : Option BanditState :=
  simpleIter env eps rand pick rint nb 0 (initState env.size)

/-- The mutable state of `gradient_bandit`: preferences `H`, the running
reward baseline `R_` with its observation count `N_`, and the histories. -/
structure GradState where
  H : List ℝ
  R_ : ℝ
  N_ : ℝ
  hist_A : List ℕ
  hist_R : List ℝ

/-- `H = np.zeros(env.size); R_, N_ = 0.0, 0.0; hist_A = []; hist_R = []`. -/
def gradInit (k : ℕ) : GradState :=
  ⟨List.replicate k 0, 0, 0, [], []⟩

/-- One iteration of the `gradient_bandit` loop at step index `t`:
`pi = softmax(H); A = np.random.choice(range(env.size), p=pi); R = env.step(A);
H_new = H - alpha*(R-R_)*pi; H_new[A] = H[A] + alpha*(R-R_)*(1-pi[A]); H = H_new;
if baseline: N_ += 1; R_ += 1/N_ * (R-R_)`, then append to the histories.
`np.random.choice` over `range(0)` raises; its categorical draw is modelled
by the oracle `pickA` (reduced mod `env.size`, hence always a valid action). -/
noncomputable def gradStep (env : BanditEnv) (alpha : ℝ) (baseline : Bool)
    (pickA : ℕ → ℕ) (t : ℕ) (s : GradState) : Option GradState :=
  match softmax s.H with
  | none => none
  | some pi =>
    if env.size = 0 then none
    else
      let A := pickA t % env.size
      let R := env.step t A
      let Hmid := List.zipWith (fun h p => h - alpha * (R - s.R_) * p) s.H pi
      let Hnew := Hmid.set A (s.H.getD A 0 + alpha * (R - s.R_) * (1 - pi.getD A 0))
      let N2 := if baseline then s.N_ + 1 else s.N_
      let R2 := if baseline then s.R_ + 1 / N2 * (R - s.R_) else s.R_
      some ⟨Hnew, R2, N2, s.hist_A ++ [A], s.hist_R ++ [R]⟩

/-- `n` iterations of the `gradient_bandit` loop, starting at step index `t`. -/
noncomputable def gradIter (env : BanditEnv) (alpha : ℝ) (baseline : Bool)
    (pickA : ℕ → ℕ) : ℕ → ℕ → GradState → Option GradState
  | 0, _, s => some s
  | n + 1, t, s =>
    match gradStep env alpha baseline pickA t s with
    | none => none
    | some s2 => gradIter env alpha baseline pickA n (t + 1) s2

/-- `gradient_bandit(env, nb, alpha, baseline)` from
`0208_Gradient_Bandit.ipynb`: `for _ in range(nb)` of `gradStep`, from the
all-zero initial state. -/
noncomputable def gradient_bandit (env : BanditEnv) (nb : ℕ) (alpha : ℝ)
    (baseline : Bool) (pickA : ℕ → ℕ) : Option GradState :=
  gradIter env alpha baseline pickA nb 0 (gradInit env.size)

/-- The rewards recorded for action `a` so far: the second components of the
history pairs whose action equals `a`. -/
def rewardsFor (a : ℕ) (s : BanditState) : List ℝ :=
  ((s.hist_A.zip s.hist_R).filter (fun p => p.1 == a)).map Prod.snd

/-! ### Basic list lemmas used throughout -/

theorem getD_set_self (l : List ℝ) {i : ℕ} (v : ℝ) (h : i < l.length) :
    (l.set i v).getD i 0 = v := by
  rw [List.getD_eq_getElem?_getD, List.getElem?_set_self h]
  rfl

theorem getD_set_ne (l : List ℝ) {i j : ℕ} (h : i ≠ j) (v : ℝ) :
    (l.set i v).getD j 0 = l.getD j 0 := by
  rw [List.getD_eq_getElem?_getD, List.getElem?_set_ne h, ← List.getD_eq_getElem?_getD]

theorem sum_set_getD (l : List ℝ) : ∀ i : ℕ, i < l.length → ∀ v : ℝ,
    (l.set i v).sum = l.sum - l.getD i 0 + v := by
  induction l with
  | nil => intro i h; simp at h
  | cons a l ih =>
    intro i h v
    cases i with
    | zero => simp [List.getD]; ring
    | succ i =>
      have hi : i < l.length := by simpa using Nat.lt_of_succ_lt_succ h
      have := ih i hi v
      simp only [List.set_cons_succ, List.sum_cons, this, List.getD_cons_succ]
      ring

theorem sum_map_div (l : List ℝ) (b : ℝ) :
    (l.map (fun x => x / b)).sum = l.sum / b := by
  induction l with
  | nil => simp
  | cons a l ih => simp [ih, add_div]

theorem getD_zipWith (f : ℝ → ℝ → ℝ) (l1 l2 : List ℝ) (i : ℕ)
    (h1 : i < l1.length) (h2 : i < l2.length) :
    (List.zipWith f l1 l2).getD i 0 = f (l1.getD i 0) (l2.getD i 0) := by
  have hz : i < (List.zipWith f l1 l2).length := by
    rw [List.length_zipWith]; exact lt_min h1 h2
  rw [List.getD_eq_getElem _ _ hz, List.getD_eq_getElem _ _ h1, List.getD_eq_getElem _ _ h2,
    List.getElem_zipWith]

theorem sum_zipWith_sub_mul (c : ℝ) (l : List ℝ) : ∀ p : List ℝ, l.length = p.length →
    (List.zipWith (fun x y => x - c * y) l p).sum = l.sum - c * p.sum := by
  induction l with
  | nil =>
    intro p h
    have hp : p = [] := List.eq_nil_of_length_eq_zero h.symm
    subst hp; simp
  | cons a l ih =>
    intro p h
    cases p with
    | nil => simp at h
    | cons b p =>
      have := ih p (by simpa using h)
      simp [this]
      ring

theorem exists_snd_mem_zip {l1 : List ℕ} : ∀ {l2 : List ℝ}, l1.length = l2.length →
    ∀ {a : ℕ}, a ∈ l1 → ∃ r, (a, r) ∈ l1.zip l2 := by
  induction l1 with
  | nil => intro l2 h a ha; simp at ha
  | cons x l ih =>
    intro l2 h a ha
    cases l2 with
    | nil => simp at h
    | cons y l2 =>
      rcases List.mem_cons.mp ha with rfl | ha2
      · exact ⟨y, by simp⟩
      · obtain ⟨r, hr⟩ := ih (by simpa using h) ha2
        exact ⟨r, by simp [hr]⟩

theorem max?_spec {arr : List ℝ} {m : ℝ} (h : arr.max? = some m) :
    m ∈ arr ∧ ∀ b ∈ arr, b ≤ m := by
  refine ⟨List.max?_mem max_choice h, ?_⟩
  exact (List.max?_le_iff (fun _ _ _ => max_le_iff) h).mp le_rfl

theorem max?_ne_none {arr : List ℝ} (h : arr ≠ []) : ∃ m, arr.max? = some m := by
  cases harr : arr.max? with
  | none => exact absurd (List.max?_eq_none_iff.mp harr) h
  | some m => exact ⟨m, rfl⟩

/-! ### Properties of `tiesOf`, `argmax_rand`, `softmax` -/

theorem mem_tiesOf {arr : List ℝ} {m : ℝ} {i : ℕ} :
    i ∈ tiesOf arr m ↔ i < arr.length ∧ arr.getD i 0 = m := by
  simp [tiesOf, List.mem_filter, List.mem_range]

theorem tiesOf_nodup (arr : List ℝ) (m : ℝ) : (tiesOf arr m).Nodup :=
  List.Nodup.filter _ (List.nodup_range _)

theorem tiesOf_ne_nil {arr : List ℝ} {m : ℝ} (h : arr.max? = some m) :
    tiesOf arr m ≠ [] := by
  obtain ⟨hm, -⟩ := max?_spec h
  obtain ⟨i, hi, hie⟩ := List.mem_iff_getElem.mp hm
  exact List.ne_nil_of_mem (mem_tiesOf.mpr ⟨hi, by rw [List.getD_eq_getElem _ _ hi, hie]⟩)

theorem argmax_rand_eq {arr : List ℝ} {m : ℝ} (h : arr.max? = some m) (p : ℕ) :
    ∃ hlt : p % (tiesOf arr m).length < (tiesOf arr m).length,
      argmax_rand arr p = some ((tiesOf arr m).get ⟨p % (tiesOf arr m).length, hlt⟩) := by
  have hpos : 0 < (tiesOf arr m).length := List.length_pos.mpr (tiesOf_ne_nil h)
  have hlt : p % (tiesOf arr m).length < (tiesOf arr m).length := Nat.mod_lt _ hpos
  refine ⟨hlt, ?_⟩
  simp [argmax_rand, h, List.getElem?_eq_getElem hlt]

theorem argmax_rand_mem {arr : List ℝ} {m : ℝ} (h : arr.max? = some m) (p : ℕ) :
    ∃ i, argmax_rand arr p = some i ∧ i ∈ tiesOf arr m := by
  obtain ⟨hlt, heq⟩ := argmax_rand_eq h p
  exact ⟨_, heq, List.get_mem _ _ hlt⟩

theorem argmax_rand_lt {arr : List ℝ} {p i : ℕ} (h : argmax_rand arr p = some i) :
    i < arr.length := by
  cases harr : arr.max? with
  | none => simp [argmax_rand, harr] at h
  | some m =>
    simp only [argmax_rand, harr] at h
    obtain ⟨hlt, hval⟩ := List.getElem?_eq_some_iff.mp h
    have hmem : i ∈ tiesOf arr m := hval ▸ List.getElem_mem hlt
    exact (mem_tiesOf.mp hmem).1

theorem argmax_rand_max {arr : List ℝ} {p i : ℕ} (h : argmax_rand arr p = some i) :
    ∀ j, j < arr.length → arr.getD j 0 ≤ arr.getD i 0 := by
  intro j hj
  cases harr : arr.max? with
  | none => simp [argmax_rand, harr] at h
  | some m =>
    simp only [argmax_rand, harr] at h
    obtain ⟨hlt, hval⟩ := List.getElem?_eq_some_iff.mp h
    have hmem : i ∈ tiesOf arr m := hval ▸ List.getElem_mem hlt
    rw [(mem_tiesOf.mp hmem).2, List.getD_eq_getElem _ _ hj]
    exact (max?_spec harr).2 _ (List.getElem_mem hj)

theorem softmax_length {x p : List ℝ} (h : softmax x = some p) :
    p.length = x.length := by
  cases harr : x.max? with
  | none => simp [softmax, harr] at h
  | some m =>
    simp only [softmax, harr] at h
    have hp := Option.some.inj h
    subst hp
    simp

theorem softmax_pos {x p : List ℝ} (h : softmax x = some p) :
    x ≠ [] ∧ ∀ v ∈ p, 0 < v := by
  cases harr : x.max? with
  | none => simp [softmax, harr] at h
  | some m =>
    have hne : x ≠ [] := by
      intro hx; rw [hx] at harr; simp at harr
    simp only [softmax, harr] at h
    have hp := Option.some.inj h
    subst hp
    refine ⟨hne, ?_⟩
    intro v hv
    obtain ⟨e, he, rfl⟩ := List.mem_map.mp hv
    obtain ⟨w, hw, rfl⟩ := List.mem_map.mp he
    have hpos : ∀ y ∈ x.map (fun v => Real.exp (v - m)), 0 < y := by
      intro y hy
      obtain ⟨w2, hw2, rfl⟩ := List.mem_map.mp hy
      exact Real.exp_pos _
    have hsum : 0 < (x.map (fun v => Real.exp (v - m))).sum :=
      List.sum_pos _ hpos (by simpa using hne)
    exact div_pos (Real.exp_pos _) hsum

theorem softmax_le_one {x p : List ℝ} (h : softmax x = some p) :
    ∀ v ∈ p, v ≤ 1 := by
  cases harr : x.max? with
  | none => simp [softmax, harr] at h
  | some m =>
    have hne : x ≠ [] := by
      intro hx; rw [hx] at harr; simp at harr
    simp only [softmax, harr] at h
    have hp := Option.some.inj h
    subst hp
    intro v hv
    obtain ⟨e, he, rfl⟩ := List.mem_map.mp hv
    have hpos : ∀ y ∈ x.map (fun v => Real.exp (v - m)), 0 < y := by
      intro y hy
      obtain ⟨w2, hw2, rfl⟩ := List.mem_map.mp hy
      exact Real.exp_pos _
    have hsum : 0 < (x.map (fun v => Real.exp (v - m))).sum :=
      List.sum_pos _ hpos (by simpa using hne)
    rw [div_le_one hsum]
    exact List.single_le_sum (fun y hy => le_of_lt (hpos y hy)) _ he

theorem softmax_sum {x p : List ℝ} (h : softmax x = some p) : p.sum = 1 := by
  cases harr : x.max? with
  | none => simp [softmax, harr] at h
  | some m =>
    have hne : x ≠ [] := by
      intro hx; rw [hx] at harr; simp at harr
    simp only [softmax, harr] at h
    have hp := Option.some.inj h
    subst hp
    have hpos : ∀ y ∈ x.map (fun v => Real.exp (v - m)), 0 < y := by
      intro y hy
      obtain ⟨w2, hw2, rfl⟩ := List.mem_map.mp hy
      exact Real.exp_pos _
    have hsum : 0 < (x.map (fun v => Real.exp (v - m))).sum :=
      List.sum_pos _ hpos (by simpa using hne)
    rw [sum_map_div, div_self (ne_of_gt hsum)]

theorem softmax_isSome {x : List ℝ} (h : x ≠ []) : ∃ p, softmax x = some p := by
  obtain ⟨m, hm⟩ := max?_ne_none h
  exact ⟨(x.map (fun v => Real.exp (v - m))).map
      (fun e => e / (x.map (fun v => Real.exp (v - m))).sum),
    by simp only [softmax, hm]⟩

/-! ### The incremental-mean invariant of the shared update -/

theorem getD_replicate_zero (k i : ℕ) : (List.replicate k (0:ℝ)).getD i 0 = 0 := by
  rw [List.getD_eq_getElem?_getD, List.getElem?_replicate]
  split <;> rfl

theorem incr_mean (q R sum n : ℝ) (hn : 0 ≤ n) (hq : q * n = sum) :
    (q + 1 / (n + 1) * (R - q)) * (n + 1) = sum + R := by
  have hne : n + 1 ≠ 0 := by positivity
  field_simp
  linear_combination hq

theorem rewardsFor_update (a : ℕ) (s : BanditState)
    (hlen : s.hist_A.length = s.hist_R.length) (A : ℕ) (R : ℝ) :
    rewardsFor a (banditUpdate s A R) =
      rewardsFor a s ++ if A = a then [R] else [] := by
  simp only [rewardsFor, banditUpdate]
  rw [List.zip_append hlen, List.filter_append, List.map_append]
  congr 1
  by_cases hAa : A = a
  · subst hAa; simp
  · simp [List.filter_cons, hAa]

/-- The run invariant of `ucb_bandit` and `simple_bandit`: `Q`/`N` keep
length `k`, the histories stay parallel with in-range actions, `N[a]` is the
number of observations of `a`, and `Q[a]` times that count is their sum
(`Q[a]` still `0` when the count is). -/
structure UcbInv (k : ℕ) (s : BanditState) : Prop where
  qlen : s.Q.length = k
  nlen : s.N.length = k
  hlen : s.hist_A.length = s.hist_R.length
  hbound : ∀ a ∈ s.hist_A, a < k
  ncount : ∀ a : ℕ, s.N.getD a 0 = ((rewardsFor a s).length : ℝ)
  qsum : ∀ a : ℕ, s.Q.getD a 0 * ((rewardsFor a s).length : ℝ) = (rewardsFor a s).sum
  qzero : ∀ a : ℕ, rewardsFor a s = [] → s.Q.getD a 0 = 0
  nsum : s.N.sum = (s.hist_A.length : ℝ)

theorem ucbInv_init (k : ℕ) : UcbInv k (initState k) := by
  constructor <;> simp [initState, rewardsFor, getD_replicate_zero]

theorem ucbInv_update {k : ℕ} {s : BanditState} (inv : UcbInv k s) {A : ℕ}
    (hA : A < k) (R : ℝ) : UcbInv k (banditUpdate s A R) := by
  have hrw := fun a => rewardsFor_update a s inv.hlen A R
  have hNlen : A < s.N.length := by rw [inv.nlen]; exact hA
  have hQlen : A < s.Q.length := by rw [inv.qlen]; exact hA
  have hNget : (banditUpdate s A R).N.getD A 0 = s.N.getD A 0 + 1 := by
    simp only [banditUpdate]
    exact getD_set_self _ _ hNlen
  have hQget : (banditUpdate s A R).Q.getD A 0 =
      s.Q.getD A 0 + 1 / (s.N.getD A 0 + 1) * (R - s.Q.getD A 0) := by
    simp only [banditUpdate]
    rw [getD_set_self _ _ hQlen, getD_set_self _ _ hNlen]
  have hNne : ∀ b : ℕ, b ≠ A → (banditUpdate s A R).N.getD b 0 = s.N.getD b 0 := by
    intro b hb
    simp only [banditUpdate]
    exact getD_set_ne _ (fun hh => hb hh.symm) _
  have hQne : ∀ b : ℕ, b ≠ A → (banditUpdate s A R).Q.getD b 0 = s.Q.getD b 0 := by
    intro b hb
    simp only [banditUpdate]
    exact getD_set_ne _ (fun hh => hb hh.symm) _
  constructor
  · simp [banditUpdate, inv.qlen]
  · simp [banditUpdate, inv.nlen]
  · simp [banditUpdate, inv.hlen]
  · intro a ha
    simp only [banditUpdate, List.mem_append, List.mem_singleton] at ha
    rcases ha with ha | rfl
    · exact inv.hbound a ha
    · exact hA
  · intro a
    by_cases haA : a = A
    · subst haA
      rw [hNget, inv.ncount a, hrw a, if_pos rfl]
      push_cast [List.length_append]
      simp
    · rw [hNne a haA, inv.ncount a, hrw a, if_neg (fun hh => haA hh.symm)]
      simp
  · intro a
    by_cases haA : a = A
    · subst haA
      rw [hQget, hrw a, if_pos rfl, inv.ncount a, List.sum_append]
      have hcast : (((rewardsFor a s ++ [R]).length : ℕ) : ℝ) =
          ((rewardsFor a s).length : ℝ) + 1 := by
        push_cast [List.length_append]
        simp
      rw [hcast, incr_mean _ R _ _ (Nat.cast_nonneg _) (inv.qsum a)]
      simp
    · rw [hQne a haA, hrw a, if_neg (fun hh => haA hh.symm)]
      simpa using inv.qsum a
  · intro a hnil
    by_cases haA : a = A
    · subst haA
      rw [hrw a, if_pos rfl] at hnil
      simp at hnil
    · rw [hrw a, if_neg (fun hh => haA hh.symm), List.append_nil] at hnil
      rw [hQne a haA]
      exact inv.qzero a hnil
  · show (s.N.set A (s.N.getD A 0 + 1)).sum = _
    rw [sum_set_getD _ _ hNlen]
    show _ = ((s.hist_A ++ [A]).length : ℝ)
    rw [inv.nsum]
    push_cast [List.length_append]
    simp
    ring

theorem ucbInv_mean {k : ℕ} {s : BanditState} (inv : UcbInv k s) (a : ℕ) :
    (a ∈ s.hist_A → s.Q.getD a 0 = (rewardsFor a s).sum / ((rewardsFor a s).length : ℝ)) ∧
    (a ∉ s.hist_A → s.Q.getD a 0 = 0) := by
  constructor
  · intro ha
    obtain ⟨r, hr⟩ := exists_snd_mem_zip inv.hlen ha
    have hmem : r ∈ rewardsFor a s := by
      simp only [rewardsFor]
      exact List.mem_map.mpr ⟨(a, r), List.mem_filter.mpr ⟨hr, by simp⟩, rfl⟩
    have hne : rewardsFor a s ≠ [] := List.ne_nil_of_mem hmem
    have hlen0 : ((rewardsFor a s).length : ℝ) ≠ 0 :=
      Nat.cast_ne_zero.mpr (List.length_pos.mpr hne).ne'
    rw [eq_div_iff hlen0]
    exact inv.qsum a
  · intro ha
    apply inv.qzero
    by_contra hne
    obtain ⟨r, hrmem⟩ := List.exists_mem_of_ne_nil _ hne
    simp only [rewardsFor, List.mem_map] at hrmem
    obtain ⟨⟨x, y⟩, hxy, rfl⟩ := hrmem
    have hmf := List.mem_filter.mp hxy
    have hx : x = a := by simpa using hmf.2
    exact ha (hx ▸ (List.of_mem_zip hmf.1).1)

/-! ### Invariant preservation along the runs -/

theorem ucbInv_ucbStep {env : BanditEnv} {c : ℝ} {pick : ℕ → ℕ} {t : ℕ}
    {s s2 : BanditState} (inv : UcbInv env.size s)
    (h : ucbStep env c pick t s = some s2) : UcbInv env.size s2 := by
  cases harg : argmax_rand (ucbScores c t s.Q s.N) (pick t) with
  | none => simp [ucbStep, harg] at h
  | some A =>
    simp only [ucbStep, harg] at h
    have hp := Option.some.inj h
    subst hp
    have hA : A < env.size := by
      have hlt := argmax_rand_lt harg
      rw [ucbScores, List.length_zipWith, inv.qlen, inv.nlen, min_self] at hlt
      exact hlt
    exact ucbInv_update inv hA _

theorem ucbInv_simpleStep {env : BanditEnv} {eps : ℝ} {rand : ℕ → ℝ}
    {pick rint : ℕ → ℕ} {t : ℕ} {s s2 : BanditState} (inv : UcbInv env.size s)
    (h : simpleStep env eps rand pick rint t s = some s2) : UcbInv env.size s2 := by
  simp only [simpleStep] at h
  by_cases hc : eps < rand t
  · rw [if_pos hc] at h
    cases harg : argmax_rand s.Q (pick t) with
    | none => rw [harg] at h; exact absurd h (by simp)
    | some A =>
      rw [harg] at h
      have hp := Option.some.inj h
      subst hp
      have hA : A < env.size := inv.qlen ▸ argmax_rand_lt harg
      exact ucbInv_update inv hA _
  · rw [if_neg hc] at h
    by_cases hk : env.size = 0
    · rw [if_pos hk] at h; exact absurd h (by simp)
    · rw [if_neg hk] at h
      have hp := Option.some.inj h
      subst hp
      exact ucbInv_update inv (Nat.mod_lt _ (Nat.pos_of_ne_zero hk)) _

theorem ucbInv_warmup (env : BanditEnv) : ∀ n, n ≤ env.size →
    UcbInv env.size (ucbWarmupAux env n) := by
  intro n
  induction n with
  | zero => intro _; exact ucbInv_init env.size
  | succ n ih =>
    intro h
    have := ucbInv_update (ih (Nat.le_of_succ_le h)) (Nat.lt_of_succ_le h) (env.step n n)
    simpa only [ucbWarmupAux] using this

theorem ucbInv_after {env : BanditEnv} {c : ℝ} {pick : ℕ → ℕ} :
    ∀ {t : ℕ} {s : BanditState}, ucbAfter env c pick t = some s → UcbInv env.size s := by
  intro t
  induction t with
  | zero =>
    intro s h
    simp only [ucbAfter] at h
    exact (Option.some.inj h) ▸ ucbInv_init env.size
  | succ t ih =>
    intro s h
    simp only [ucbAfter] at h
    by_cases hle : t + 1 ≤ env.size
    · rw [if_pos hle] at h
      exact (Option.some.inj h) ▸ ucbInv_warmup env (t + 1) hle
    · rw [if_neg hle] at h
      cases hprev : ucbAfter env c pick t with
      | none => rw [hprev] at h; exact absurd h (by simp)
      | some s1 =>
        rw [hprev, Option.some_bind] at h
        exact ucbInv_ucbStep (ih hprev) h

theorem ucbInv_simpleIter {env : BanditEnv} {eps : ℝ} {rand : ℕ → ℝ}
    {pick rint : ℕ → ℕ} : ∀ (n t : ℕ) {s s2 : BanditState}, UcbInv env.size s →
    simpleIter env eps rand pick rint n t s = some s2 → UcbInv env.size s2 := by
  intro n
  induction n with
  | zero =>
    intro t s s2 inv h
    simp only [simpleIter] at h
    exact (Option.some.inj h) ▸ inv
  | succ n ih =>
    intro t s s2 inv h
    cases hstep : simpleStep env eps rand pick rint t s with
    | none => simp [simpleIter, hstep] at h
    | some s3 =>
      simp only [simpleIter, hstep] at h
      exact ih (t + 1) (ucbInv_simpleStep inv hstep) h

theorem ucbInv_simple {env : BanditEnv} {nb : ℕ} {eps : ℝ} {rand : ℕ → ℝ}
    {pick rint : ℕ → ℕ} {s : BanditState}
    (h : simple_bandit env nb eps rand pick rint = some s) : UcbInv env.size s :=
  ucbInv_simpleIter nb 0 (ucbInv_init env.size) h

/-! ### Relating `ucb_bandit` to its step-indexed trace `ucbAfter` -/

theorem ucbIter_succ_left (env : BanditEnv) (c : ℝ) (pick : ℕ → ℕ)
    (n t : ℕ) (s : BanditState) :
    ucbIter env c pick (n + 1) t s =
      (ucbStep env c pick t s).bind (ucbIter env c pick n (t + 1)) := by
  cases hstep : ucbStep env c pick t s <;> simp [ucbIter, hstep]

theorem ucbIter_succ (env : BanditEnv) (c : ℝ) (pick : ℕ → ℕ) :
    ∀ (n t : ℕ) (s : BanditState),
      ucbIter env c pick (n + 1) t s =
        (ucbIter env c pick n t s).bind (ucbStep env c pick (t + n)) := by
  intro n
  induction n with
  | zero =>
    intro t s
    rw [ucbIter_succ_left]
    cases hstep : ucbStep env c pick t s <;> simp [ucbIter, hstep]
  | succ n ih =>
    intro t s
    rw [ucbIter_succ_left]
    cases hstep : ucbStep env c pick t s with
    | none =>
      rw [ucbIter_succ_left, hstep]
      simp
    | some s2 =>
      have harith : t + 1 + n = t + (n + 1) := by omega
      calc (some s2).bind (ucbIter env c pick (n + 1) (t + 1))
          = ucbIter env c pick (n + 1) (t + 1) s2 := Option.some_bind _ _
        _ = (ucbIter env c pick n (t + 1) s2).bind
              (ucbStep env c pick (t + 1 + n)) := ih (t + 1) s2
        _ = ((some s2).bind (ucbIter env c pick n (t + 1))).bind
              (ucbStep env c pick (t + (n + 1))) := by
            rw [Option.some_bind, harith]
        _ = ((ucbStep env c pick t s).bind (ucbIter env c pick n (t + 1))).bind
              (ucbStep env c pick (t + (n + 1))) := by rw [hstep]
        _ = (ucbIter env c pick (n + 1) t s).bind
              (ucbStep env c pick (t + (n + 1))) := by rw [ucbIter_succ_left]

theorem ucbAfter_warm (env : BanditEnv) (c : ℝ) (pick : ℕ → ℕ) :
    ∀ t, t ≤ env.size → ucbAfter env c pick t = some (ucbWarmupAux env t) := by
  intro t ht
  cases t with
  | zero => simp [ucbAfter, ucbWarmupAux, initState]
  | succ t => simp only [ucbAfter, if_pos ht]

theorem ucbAfter_add (env : BanditEnv) (c : ℝ) (pick : ℕ → ℕ) :
    ∀ m, ucbAfter env c pick (env.size + m) =
      ucbIter env c pick m env.size (ucbWarmupAux env env.size) := by
  intro m
  induction m with
  | zero =>
    rw [Nat.add_zero, ucbAfter_warm env c pick env.size le_rfl]
    simp [ucbIter]
  | succ m ih =>
    have hne : ¬ env.size + m + 1 ≤ env.size := by omega
    have : env.size + (m + 1) = (env.size + m) + 1 := by omega
    rw [this]
    simp only [ucbAfter, if_neg hne]
    rw [ih, ucbIter_succ]

theorem ucb_bandit_eq_after (env : BanditEnv) (nb : ℕ) (c : ℝ) (pick : ℕ → ℕ) :
    ucb_bandit env nb c pick = ucbAfter env c pick (max env.size nb) := by
  rcases le_total nb env.size with h | h
  · have h0 : nb - env.size = 0 := by omega
    have hm : max env.size nb = env.size := by omega
    rw [ucb_bandit, h0, hm, ucbAfter_warm env c pick env.size le_rfl]
    simp [ucbIter]
  · have hm : max env.size nb = env.size + (nb - env.size) := by omega
    rw [ucb_bandit, hm, ucbAfter_add]

theorem ucbInv_run {env : BanditEnv} {nb : ℕ} {c : ℝ} {pick : ℕ → ℕ}
    {s : BanditState} (h : ucb_bandit env nb c pick = some s) : UcbInv env.size s :=
  ucbInv_after (ucb_bandit_eq_after env nb c pick ▸ h)

/-! ### Characterizing the warm-up phase -/

theorem banditUpdate_hist_A (s : BanditState) (A : ℕ) (R : ℝ) :
    (banditUpdate s A R).hist_A = s.hist_A ++ [A] := rfl

theorem banditUpdate_hist_R (s : BanditState) (A : ℕ) (R : ℝ) :
    (banditUpdate s A R).hist_R = s.hist_R ++ [R] := rfl

theorem banditUpdate_N (s : BanditState) (A : ℕ) (R : ℝ) :
    (banditUpdate s A R).N = s.N.set A (s.N.getD A 0 + 1) := rfl

theorem banditUpdate_Q (s : BanditState) (A : ℕ) (R : ℝ) :
    (banditUpdate s A R).Q = s.Q.set A (s.Q.getD A 0 +
      1 / ((s.N.set A (s.N.getD A 0 + 1)).getD A 0) * (R - s.Q.getD A 0)) := rfl

theorem warmup_hist (env : BanditEnv) : ∀ n : ℕ,
    (ucbWarmupAux env n).hist_A = List.range n ∧
    (ucbWarmupAux env n).hist_R = (List.range n).map (fun a => env.step a a) := by
  intro n
  induction n with
  | zero => exact ⟨rfl, rfl⟩
  | succ n ih =>
    constructor
    · simp only [ucbWarmupAux, banditUpdate_hist_A, ih.1, List.range_succ]
    · simp only [ucbWarmupAux, banditUpdate_hist_R, ih.2, List.range_succ,
        List.map_append, List.map_cons, List.map_nil]

theorem warmup_vals (env : BanditEnv) : ∀ n : ℕ, n ≤ env.size → ∀ a : ℕ,
    (a < n → (ucbWarmupAux env n).N.getD a 0 = 1 ∧
      (ucbWarmupAux env n).Q.getD a 0 = env.step a a) ∧
    (n ≤ a → (ucbWarmupAux env n).N.getD a 0 = 0 ∧
      (ucbWarmupAux env n).Q.getD a 0 = 0) := by
  intro n
  induction n with
  | zero =>
    intro _ a
    refine ⟨fun h => absurd h (Nat.not_lt_zero a), fun _ => ?_⟩
    constructor <;> simp [ucbWarmupAux, initState, getD_replicate_zero]
  | succ n ih =>
    intro hle a
    have hnle : n ≤ env.size := Nat.le_of_succ_le hle
    have hnlt : n < env.size := Nat.lt_of_succ_le hle
    have invn := ucbInv_warmup env n hnle
    have hNn : n < (ucbWarmupAux env n).N.length := by rw [invn.nlen]; exact hnlt
    have hQn : n < (ucbWarmupAux env n).Q.length := by rw [invn.qlen]; exact hnlt
    have hN0 : (ucbWarmupAux env n).N.getD n 0 = 0 := ((ih hnle n).2 le_rfl).1
    have hQ0 : (ucbWarmupAux env n).Q.getD n 0 = 0 := ((ih hnle n).2 le_rfl).2
    have hNsucc : (ucbWarmupAux env (n + 1)).N.getD n 0 = 1 := by
      simp only [ucbWarmupAux, banditUpdate_N]
      rw [getD_set_self _ _ hNn, hN0]
      norm_num
    have hQsucc : (ucbWarmupAux env (n + 1)).Q.getD n 0 = env.step n n := by
      simp only [ucbWarmupAux, banditUpdate_Q]
      rw [getD_set_self _ _ hQn, getD_set_self _ _ hNn, hN0, hQ0]
      norm_num
    have hNkeep : ∀ b : ℕ, b ≠ n →
        (ucbWarmupAux env (n + 1)).N.getD b 0 = (ucbWarmupAux env n).N.getD b 0 := by
      intro b hb
      simp only [ucbWarmupAux, banditUpdate_N]
      exact getD_set_ne _ (fun hh => hb hh.symm) _
    have hQkeep : ∀ b : ℕ, b ≠ n →
        (ucbWarmupAux env (n + 1)).Q.getD b 0 = (ucbWarmupAux env n).Q.getD b 0 := by
      intro b hb
      simp only [ucbWarmupAux, banditUpdate_Q]
      exact getD_set_ne _ (fun hh => hb hh.symm) _
    constructor
    · intro ha
      rcases Nat.lt_succ_iff_lt_or_eq.mp ha with han | rfl
      · have hne : a ≠ n := Nat.ne_of_lt han
        rw [hNkeep a hne, hQkeep a hne]
        exact (ih hnle a).1 han
      · exact ⟨hNsucc, hQsucc⟩
    · intro ha
      have hne : a ≠ n := by omega
      rw [hNkeep a hne, hQkeep a hne]
      exact (ih hnle a).2 (by omega)

/-! ### The gradient-bandit run invariant -/

/-- The run invariant of `gradient_bandit`: `H` keeps length `k` and sums to
zero, the histories stay parallel, and the baseline pair `R_`/`N_` tracks the
exact running mean of the observed rewards when `baseline` is set, and stays
zero when it is not. -/
structure GradInv (k : ℕ) (baseline : Bool) (s : GradState) : Prop where
  hlen : s.H.length = k
  histlen : s.hist_A.length = s.hist_R.length
  hsum : s.H.sum = 0
  btrue : baseline = true → s.N_ = (s.hist_R.length : ℝ) ∧
    s.R_ * (s.hist_R.length : ℝ) = s.hist_R.sum ∧ (s.hist_R = [] → s.R_ = 0)
  bfalse : baseline = false → s.R_ = 0 ∧ s.N_ = 0

theorem gradInv_init (k : ℕ) (baseline : Bool) : GradInv k baseline (gradInit k) := by
  constructor <;> simp [gradInit]

theorem gradInv_gradStep {env : BanditEnv} {alpha : ℝ} {baseline : Bool}
    {pickA : ℕ → ℕ} {t : ℕ} {s s2 : GradState} (inv : GradInv env.size baseline s)
    (h : gradStep env alpha baseline pickA t s = some s2) :
    GradInv env.size baseline s2 := by
  cases hsm : softmax s.H with
  | none => simp [gradStep, hsm] at h
  | some pi =>
    simp only [gradStep, hsm] at h
    by_cases hk : env.size = 0
    · rw [if_pos hk] at h; exact absurd h (by simp)
    · rw [if_neg hk] at h
      have hp := Option.some.inj h
      subst hp
      have hA : pickA t % env.size < env.size := Nat.mod_lt _ (Nat.pos_of_ne_zero hk)
      have hpilen : pi.length = s.H.length := softmax_length hsm
      have hAH : pickA t % env.size < s.H.length := by rw [inv.hlen]; exact hA
      have hApi : pickA t % env.size < pi.length := by rw [hpilen, inv.hlen]; exact hA
      have hmidlen : (List.zipWith
          (fun h p => h - alpha * (env.step t (pickA t % env.size) - s.R_) * p)
          s.H pi).length = s.H.length := by
        rw [List.length_zipWith, hpilen, min_self]
      have hAmid : pickA t % env.size < (List.zipWith
          (fun h p => h - alpha * (env.step t (pickA t % env.size) - s.R_) * p)
          s.H pi).length := by rw [hmidlen]; exact hAH
      constructor
      · simp only [List.length_set, hmidlen, inv.hlen]
      · simp [inv.histlen]
      · rw [sum_set_getD _ _ hAmid,
          sum_zipWith_sub_mul _ _ _ hpilen.symm,
          getD_zipWith _ _ _ _ hAH hApi, softmax_sum hsm, inv.hsum]
        ring
      · intro hb
        subst hb
        simp only [if_true]
        obtain ⟨hN, hR, -⟩ := inv.btrue rfl
        refine ⟨?_, ?_, ?_⟩
        · rw [hN]
          simp [List.length_append]
        · rw [hN]
          have hcast : ((s.hist_R ++ [env.step t (pickA t % env.size)]).length : ℝ) =
              (s.hist_R.length : ℝ) + 1 := by
            push_cast [List.length_append]
            simp
          rw [hcast, List.sum_append,
            incr_mean _ _ _ _ (Nat.cast_nonneg _) hR]
          simp
        · intro hnil
          simp at hnil
      · intro hb
        subst hb
        simp only [Bool.false_eq_true, if_false]
        exact inv.bfalse rfl

theorem gradInv_iter {env : BanditEnv} {alpha : ℝ} {baseline : Bool}
    {pickA : ℕ → ℕ} : ∀ (n t : ℕ) {s s2 : GradState}, GradInv env.size baseline s →
    gradIter env alpha baseline pickA n t s = some s2 → GradInv env.size baseline s2 := by
  intro n
  induction n with
  | zero =>
    intro t s s2 inv h
    simp only [gradIter] at h
    exact (Option.some.inj h) ▸ inv
  | succ n ih =>
    intro t s s2 inv h
    cases hstep : gradStep env alpha baseline pickA t s with
    | none => simp [gradIter, hstep] at h
    | some s3 =>
      simp only [gradIter, hstep] at h
      exact ih (t + 1) (gradInv_gradStep inv hstep) h

theorem gradInv_run {env : BanditEnv} {nb : ℕ} {alpha : ℝ} {baseline : Bool}
    {pickA : ℕ → ℕ} {s : GradState}
    (h : gradient_bandit env nb alpha baseline pickA = some s) :
    GradInv env.size baseline s :=
  gradInv_iter nb 0 (gradInv_init env.size baseline) h

theorem gradIter_succ_left (env : BanditEnv) (alpha : ℝ) (baseline : Bool)
    (pickA : ℕ → ℕ) (n t : ℕ) (s : GradState) :
    gradIter env alpha baseline pickA (n + 1) t s =
      (gradStep env alpha baseline pickA t s).bind
        (gradIter env alpha baseline pickA n (t + 1)) := by
  cases hstep : gradStep env alpha baseline pickA t s <;> simp [gradIter, hstep]

theorem gradIter_succ (env : BanditEnv) (alpha : ℝ) (baseline : Bool)
    (pickA : ℕ → ℕ) : ∀ (n t : ℕ) (s : GradState),
      gradIter env alpha baseline pickA (n + 1) t s =
        (gradIter env alpha baseline pickA n t s).bind
          (gradStep env alpha baseline pickA (t + n)) := by
  intro n
  induction n with
  | zero =>
    intro t s
    rw [gradIter_succ_left]
    cases hstep : gradStep env alpha baseline pickA t s <;> simp [gradIter, hstep]
  | succ n ih =>
    intro t s
    rw [gradIter_succ_left]
    cases hstep : gradStep env alpha baseline pickA t s with
    | none =>
      rw [gradIter_succ_left, hstep]
      simp
    | some s2 =>
      have harith : t + 1 + n = t + (n + 1) := by omega
      calc (some s2).bind (gradIter env alpha baseline pickA (n + 1) (t + 1))
          = gradIter env alpha baseline pickA (n + 1) (t + 1) s2 := Option.some_bind _ _
        _ = (gradIter env alpha baseline pickA n (t + 1) s2).bind
              (gradStep env alpha baseline pickA (t + 1 + n)) := ih (t + 1) s2
        _ = ((some s2).bind (gradIter env alpha baseline pickA n (t + 1))).bind
              (gradStep env alpha baseline pickA (t + (n + 1))) := by
            rw [Option.some_bind, harith]
        _ = ((gradStep env alpha baseline pickA t s).bind
              (gradIter env alpha baseline pickA n (t + 1))).bind
              (gradStep env alpha baseline pickA (t + (n + 1))) := by rw [hstep]
        _ = (gradIter env alpha baseline pickA (n + 1) t s).bind
              (gradStep env alpha baseline pickA (t + (n + 1))) := by
            rw [gradIter_succ_left]

theorem gradient_bandit_succ (env : BanditEnv) (nb : ℕ) (alpha : ℝ)
    (baseline : Bool) (pickA : ℕ → ℕ) :
    gradient_bandit env (nb + 1) alpha baseline pickA =
      (gradient_bandit env nb alpha baseline pickA).bind
        (gradStep env alpha baseline pickA nb) := by
  unfold gradient_bandit
  rw [gradIter_succ]
  norm_num

/-! ### History lengths count the steps -/

theorem ucbStep_hist {env : BanditEnv} {c : ℝ} {pick : ℕ → ℕ} {t : ℕ}
    {s s2 : BanditState} (h : ucbStep env c pick t s = some s2) :
    s2.hist_A.length = s.hist_A.length + 1 ∧
    s2.hist_R.length = s.hist_R.length + 1 := by
  cases harg : argmax_rand (ucbScores c t s.Q s.N) (pick t) with
  | none => simp [ucbStep, harg] at h
  | some A =>
    simp only [ucbStep, harg] at h
    have hp := Option.some.inj h
    subst hp
    simp [banditUpdate_hist_A, banditUpdate_hist_R]

theorem simpleStep_hist {env : BanditEnv} {eps : ℝ} {rand : ℕ → ℝ}
    {pick rint : ℕ → ℕ} {t : ℕ} {s s2 : BanditState}
    (h : simpleStep env eps rand pick rint t s = some s2) :
    s2.hist_A.length = s.hist_A.length + 1 ∧
    s2.hist_R.length = s.hist_R.length + 1 := by
  simp only [simpleStep] at h
  by_cases hc : eps < rand t
  · rw [if_pos hc] at h
    cases harg : argmax_rand s.Q (pick t) with
    | none => rw [harg] at h; exact absurd h (by simp)
    | some A =>
      rw [harg] at h
      have hp := Option.some.inj h
      subst hp
      simp [banditUpdate_hist_A, banditUpdate_hist_R]
  · rw [if_neg hc] at h
    by_cases hk : env.size = 0
    · rw [if_pos hk] at h; exact absurd h (by simp)
    · rw [if_neg hk] at h
      have hp := Option.some.inj h
      subst hp
      simp [banditUpdate_hist_A, banditUpdate_hist_R]

theorem gradStep_hist {env : BanditEnv} {alpha : ℝ} {baseline : Bool}
    {pickA : ℕ → ℕ} {t : ℕ} {s s2 : GradState}
    (h : gradStep env alpha baseline pickA t s = some s2) :
    s2.hist_A.length = s.hist_A.length + 1 ∧
    s2.hist_R.length = s.hist_R.length + 1 := by
  cases hsm : softmax s.H with
  | none => simp [gradStep, hsm] at h
  | some pi =>
    simp only [gradStep, hsm] at h
    by_cases hk : env.size = 0
    · rw [if_pos hk] at h; exact absurd h (by simp)
    · rw [if_neg hk] at h
      have hp := Option.some.inj h
      subst hp
      simp

theorem ucbAfter_hist_len {env : BanditEnv} {c : ℝ} {pick : ℕ → ℕ} :
    ∀ {t : ℕ} {s : BanditState}, ucbAfter env c pick t = some s →
      s.hist_A.length = t ∧ s.hist_R.length = t := by
  intro t
  induction t with
  | zero =>
    intro s h
    have hp := Option.some.inj h
    subst hp
    exact ⟨rfl, rfl⟩
  | succ t ih =>
    intro s h
    simp only [ucbAfter] at h
    by_cases hle : t + 1 ≤ env.size
    · rw [if_pos hle] at h
      have hp := Option.some.inj h
      subst hp
      constructor
      · rw [(warmup_hist env (t + 1)).1, List.length_range]
      · rw [(warmup_hist env (t + 1)).2, List.length_map, List.length_range]
    · rw [if_neg hle] at h
      cases hprev : ucbAfter env c pick t with
      | none => rw [hprev] at h; exact absurd h (by simp)
      | some s1 =>
        rw [hprev, Option.some_bind] at h
        obtain ⟨hA, hR⟩ := ucbStep_hist h
        obtain ⟨hA1, hR1⟩ := ih hprev
        exact ⟨by rw [hA, hA1], by rw [hR, hR1]⟩

theorem simpleIter_hist_len {env : BanditEnv} {eps : ℝ} {rand : ℕ → ℝ}
    {pick rint : ℕ → ℕ} : ∀ (n t : ℕ) {s s2 : BanditState},
    simpleIter env eps rand pick rint n t s = some s2 →
      s2.hist_A.length = s.hist_A.length + n ∧
      s2.hist_R.length = s.hist_R.length + n := by
  intro n
  induction n with
  | zero =>
    intro t s s2 h
    simp only [simpleIter] at h
    have hp := Option.some.inj h
    subst hp
    exact ⟨rfl, rfl⟩
  | succ n ih =>
    intro t s s2 h
    cases hstep : simpleStep env eps rand pick rint t s with
    | none => simp [simpleIter, hstep] at h
    | some s3 =>
      simp only [simpleIter, hstep] at h
      obtain ⟨hA1, hR1⟩ := simpleStep_hist hstep
      obtain ⟨hA2, hR2⟩ := ih (t + 1) h
      constructor
      · rw [hA2, hA1]; ring
      · rw [hR2, hR1]; ring

theorem gradIter_hist_len {env : BanditEnv} {alpha : ℝ} {baseline : Bool}
    {pickA : ℕ → ℕ} : ∀ (n t : ℕ) {s s2 : GradState},
    gradIter env alpha baseline pickA n t s = some s2 →
      s2.hist_A.length = s.hist_A.length + n ∧
      s2.hist_R.length = s.hist_R.length + n := by
  intro n
  induction n with
  | zero =>
    intro t s s2 h
    simp only [gradIter] at h
    have hp := Option.some.inj h
    subst hp
    exact ⟨rfl, rfl⟩
  | succ n ih =>
    intro t s s2 h
    cases hstep : gradStep env alpha baseline pickA t s with
    | none => simp [gradIter, hstep] at h
    | some s3 =>
      simp only [gradIter, hstep] at h
      obtain ⟨hA1, hR1⟩ := gradStep_hist hstep
      obtain ⟨hA2, hR2⟩ := ih (t + 1) h
      constructor
      · rw [hA2, hA1]; ring
      · rw [hR2, hR1]; ring

/-! ### The claims -/

/-- C1: in every run of `ucb_bandit` (after every step `t`, via the
step-indexed trace `ucbAfter`) and in every run of `simple_bandit` (for
every step budget `nb`), `Q[a]` equals the exact arithmetic mean of all
rewards observed for action `a` so far, and `Q[a]` remains `0` for every
action never selected. -/
theorem C1_incremental_mean :
    (∀ (env : BanditEnv) (c : ℝ) (pick : ℕ → ℕ) (t : ℕ) (s : BanditState),
      ucbAfter env c pick t = some s → ∀ a : ℕ, a < env.size →
        (a ∈ s.hist_A →
          s.Q.getD a 0 = (rewardsFor a s).sum / ((rewardsFor a s).length : ℝ)) ∧
        (a ∉ s.hist_A → s.Q.getD a 0 = 0)) ∧
    (∀ (env : BanditEnv) (nb : ℕ) (eps : ℝ) (rand : ℕ → ℝ) (pick rint : ℕ → ℕ)
      (s : BanditState), simple_bandit env nb eps rand pick rint = some s →
      ∀ a : ℕ, a < env.size →
        (a ∈ s.hist_A →
          s.Q.getD a 0 = (rewardsFor a s).sum / ((rewardsFor a s).length : ℝ)) ∧
        (a ∉ s.hist_A → s.Q.getD a 0 = 0)) := by
  constructor
  · intro env c pick t s h a _
    exact ucbInv_mean (ucbInv_after h) a
  · intro env nb eps rand pick rint s h a _
    exact ucbInv_mean (ucbInv_simple h) a

/-- C2 counterexample: with `k = 2` actions and `nb = 0` (`nb ≤ 0` and
`nb < k`), `ucb_bandit` signals no configuration error: it returns normally
after executing both warm-up steps, so two `env.step` observations were
recorded — refuting "no call to env.step is made and no history entries are
produced". -/
theorem C2_counterexample :
    (ucb_bandit ⟨2, fun _ _ => 0⟩ 0 0 (fun _ => 0)).map
      (fun s => s.hist_A) = some [0, 1] := by
  have h2 : (ucbWarmupAux ⟨2, fun _ _ => 0⟩ 2).hist_A = [0, 1] := by
    rw [(warmup_hist _ 2).1]
    rfl
  simp only [ucb_bandit]
  rw [show (0 : ℕ) - (⟨2, fun _ _ => 0⟩ : BanditEnv).size = 0 from rfl]
  simp only [ucbIter]
  simp [h2]

/-- C2 amended: the code performs no configuration validation at all.
`ucb_bandit` with any `nb ≤ k` still executes all `k` warm-up steps — a
partial run of exactly `k` `env.step` observations and `k` history entries —
and returns normally; `gradient_bandit` with `nb = 0` likewise returns
normally, with empty histories, signaling nothing. -/
theorem C2_no_validation :
    (∀ (env : BanditEnv) (nb : ℕ) (c : ℝ) (pick : ℕ → ℕ), nb ≤ env.size →
      ucb_bandit env nb c pick = some (ucbWarmupAux env env.size) ∧
      (ucbWarmupAux env env.size).hist_A.length = env.size) ∧
    (∀ (env : BanditEnv) (alpha : ℝ) (baseline : Bool) (pickA : ℕ → ℕ),
      gradient_bandit env 0 alpha baseline pickA = some (gradInit env.size)) := by
  constructor
  · intro env nb c pick hle
    have h0 : nb - env.size = 0 := by omega
    constructor
    · rw [ucb_bandit, h0]
      simp [ucbIter]
    · rw [(warmup_hist env env.size).1, List.length_range]
  · intro env alpha baseline pickA
    simp [gradient_bandit, gradIter]

/-- C3: every step of the UCB bound phase (absolute step index `t ≥ k`, the
warm-up steps counted and not re-zeroed) selects an action maximizing the
score array `Q + c*sqrt(ln t / N)` evaluated at that same absolute `t`. -/
theorem C3_bound_phase_rule (env : BanditEnv) (c : ℝ) (pick : ℕ → ℕ) (t : ℕ)
    (s s2 : BanditState) (hgek : env.size ≤ t)
    (h1 : ucbAfter env c pick t = some s)
    (h2 : ucbAfter env c pick (t + 1) = some s2) :
    ∃ A : ℕ, s2.hist_A = s.hist_A ++ [A] ∧
      A < (ucbScores c t s.Q s.N).length ∧
      ∀ j : ℕ, j < (ucbScores c t s.Q s.N).length →
        (ucbScores c t s.Q s.N).getD j 0 ≤ (ucbScores c t s.Q s.N).getD A 0 := by
  have hnle : ¬ t + 1 ≤ env.size := by omega
  simp only [ucbAfter, if_neg hnle, h1, Option.some_bind] at h2
  cases harg : argmax_rand (ucbScores c t s.Q s.N) (pick t) with
  | none => simp [ucbStep, harg] at h2
  | some A =>
    simp only [ucbStep, harg] at h2
    have hp := Option.some.inj h2
    subst hp
    exact ⟨A, banditUpdate_hist_A s A _, argmax_rand_lt harg, argmax_rand_max harg⟩

/-- C4: each `gradient_bandit` step updates all `k` preferences
simultaneously from the same pre-update snapshot `pi = softmax(H)`: the
chosen action `A` becomes `H[A] + alpha*(R-b)*(1-pi[A])` and every other `a`
becomes `H[a] - alpha*(R-b)*pi[a]`, where `b` is the running baseline when
the flag is set and `0` otherwise, and `pi` is never recomputed mid-update. -/
theorem C4_simultaneous_update (env : BanditEnv) (alpha : ℝ) (baseline : Bool)
    (pickA : ℕ → ℕ) (nb : ℕ) (s s2 : GradState) (pi : List ℝ)
    (h1 : gradient_bandit env nb alpha baseline pickA = some s)
    (h2 : gradient_bandit env (nb + 1) alpha baseline pickA = some s2)
    (hpi : softmax s.H = some pi) :
    s2.H.length = s.H.length ∧
    ∀ a : ℕ, a < s.H.length →
      s2.H.getD a 0 =
        if a = pickA nb % env.size then
          s.H.getD a 0 + alpha * (env.step nb (pickA nb % env.size) -
            (if baseline then s.R_ else 0)) * (1 - pi.getD a 0)
        else
          s.H.getD a 0 - alpha * (env.step nb (pickA nb % env.size) -
            (if baseline then s.R_ else 0)) * pi.getD a 0 := by
  have hb : (if baseline then s.R_ else 0) = s.R_ := by
    cases baseline with
    | false => simpa using ((gradInv_run h1).bfalse rfl).1.symm
    | true => simp
  rw [gradient_bandit_succ, h1, Option.some_bind] at h2
  simp only [gradStep, hpi] at h2
  by_cases hk : env.size = 0
  · rw [if_pos hk] at h2
    exact absurd h2 (by simp)
  · rw [if_neg hk] at h2
    have hp := Option.some.inj h2
    subst hp
    have hpilen : pi.length = s.H.length := softmax_length hpi
    have hA : pickA nb % env.size < env.size := Nat.mod_lt _ (Nat.pos_of_ne_zero hk)
    have hAH : pickA nb % env.size < s.H.length := by
      rw [(gradInv_run h1).hlen]; exact hA
    have hmidlen : (List.zipWith
        (fun h p => h - alpha * (env.step nb (pickA nb % env.size) - s.R_) * p)
        s.H pi).length = s.H.length := by
      rw [List.length_zipWith, hpilen, min_self]
    constructor
    · simp only [List.length_set, hmidlen]
    · intro a ha
      rw [hb]
      have hapi : a < pi.length := by rw [hpilen]; exact ha
      by_cases haA : a = pickA nb % env.size
      · subst haA
        rw [if_pos rfl]
        exact getD_set_self _ _ (by rw [hmidlen]; exact ha)
      · rw [if_neg haA, getD_set_ne _ (fun hh => haA hh.symm),
          getD_zipWith _ _ _ _ ha hapi]

/-- C5: for every nonempty finite preference vector `H`, `softmax H` (which
subtracts `max H` before exponentiating and then normalizes) is a valid
probability distribution: same length, every entry in `[0, 1]`, and entries
summing exactly to `1`; in the exact real-number model no overflow, `NaN`,
or infinity can occur for any magnitude of `H`. -/
theorem C5_softmax_validity (x : List ℝ) (hne : x ≠ []) :
    ∃ p : List ℝ, softmax x = some p ∧ p.length = x.length ∧
      (∀ v ∈ p, 0 ≤ v ∧ v ≤ 1) ∧ p.sum = 1 := by
  obtain ⟨p, hp⟩ := softmax_isSome hne
  exact ⟨p, hp, softmax_length hp,
    fun v hv => ⟨le_of_lt ((softmax_pos hp).2 v hv), softmax_le_one hp v hv⟩,
    softmax_sum hp⟩

/-- C6: `argmax_rand` always returns an index whose value equals the maximum
`m` of the array — never an index with a strictly smaller value — and the
choice is uniform over the tied maximizers: the result depends on the draw
`p` only through `p % L` (`L` = number of ties), and the draws
`0, …, L - 1` hit each tied maximizer exactly once. -/
theorem C6_argmax_rand_spec (arr : List ℝ) (m : ℝ) (hmax : arr.max? = some m) :
    (∀ p : ℕ, ∃ i : ℕ, argmax_rand arr p = some i ∧ i < arr.length ∧
      arr.getD i 0 = m ∧
      ∀ j : ℕ, j < arr.length → arr.getD j 0 ≤ arr.getD i 0) ∧
    (∀ p : ℕ, argmax_rand arr p = argmax_rand arr (p % (tiesOf arr m).length)) ∧
    (∀ j : ℕ, j < arr.length → arr.getD j 0 = m →
      ∃ p : ℕ, p < (tiesOf arr m).length ∧ argmax_rand arr p = some j) ∧
    (∀ p q : ℕ, p < (tiesOf arr m).length → q < (tiesOf arr m).length →
      argmax_rand arr p = argmax_rand arr q → p = q) := by
  have heq2 : ∀ p : ℕ,
      argmax_rand arr p = (tiesOf arr m)[p % (tiesOf arr m).length]? := by
    intro p
    simp [argmax_rand, hmax]
  refine ⟨?_, ?_, ?_, ?_⟩
  · intro p
    obtain ⟨i, heq, hmem⟩ := argmax_rand_mem hmax p
    obtain ⟨hil, hiv⟩ := mem_tiesOf.mp hmem
    refine ⟨i, heq, hil, hiv, ?_⟩
    intro j hj
    rw [hiv, List.getD_eq_getElem _ _ hj]
    exact (max?_spec hmax).2 _ (List.getElem_mem hj)
  · intro p
    rw [heq2 p, heq2 (p % (tiesOf arr m).length),
      Nat.mod_mod_of_dvd p (dvd_refl _)]
  · intro j hj hjv
    have hjm : j ∈ tiesOf arr m := mem_tiesOf.mpr ⟨hj, hjv⟩
    obtain ⟨q, hq, hqe⟩ := List.mem_iff_getElem.mp hjm
    refine ⟨q, hq, ?_⟩
    rw [heq2 q, Nat.mod_eq_of_lt hq, List.getElem?_eq_getElem hq, hqe]
  · intro p q hp hq hpq
    rw [heq2 p, heq2 q, Nat.mod_eq_of_lt hp, Nat.mod_eq_of_lt hq,
      List.getElem?_eq_getElem hp, List.getElem?_eq_getElem hq] at hpq
    have hval := Option.some.inj hpq
    exact ((tiesOf_nodup arr m).getElem_inj_iff).mp hval

/-- C7: given `nb > k`, the first `k` steps of a UCB run select each of the
`k` actions exactly once, in index order `0, 1, …, k-1`; immediately after
the warm-up, `N[a] = 1` and `Q[a]` is the single reward observed for `a`,
so every `N[a] ≥ 1` before the bound formula is first evaluated. -/
theorem C7_warmup_complete (env : BanditEnv) (c : ℝ) (pick : ℕ → ℕ) (nb : ℕ)
    (hnb : env.size < nb) :
    ∃ s : BanditState, ucbAfter env c pick env.size = some s ∧
      s.hist_A = List.range env.size ∧
      s.hist_R = (List.range env.size).map (fun a => env.step a a) ∧
      ∀ a : ℕ, a < env.size →
        s.N.getD a 0 = 1 ∧ s.Q.getD a 0 = env.step a a := by
  refine ⟨ucbWarmupAux env env.size, ucbAfter_warm env c pick env.size le_rfl,
    (warmup_hist env env.size).1, (warmup_hist env env.size).2, ?_⟩
  intro a ha
  exact (warmup_vals env env.size le_rfl a).1 ha

/-- C8: after `t` steps of `ucb_bandit` or `simple_bandit`, `sum(N) = t`;
for all three selectors the two histories have equal length `t` after `t`
steps; at the end of a valid run (`nb > k` for UCB, any `nb` otherwise)
both histories have length `nb`. -/
theorem C8_conservation :
    (∀ (env : BanditEnv) (c : ℝ) (pick : ℕ → ℕ) (t : ℕ) (s : BanditState),
      ucbAfter env c pick t = some s →
        s.N.sum = (t : ℝ) ∧ s.hist_A.length = t ∧ s.hist_R.length = t) ∧
    (∀ (env : BanditEnv) (nb : ℕ) (eps : ℝ) (rand : ℕ → ℝ)
      (pick rint : ℕ → ℕ) (s : BanditState),
      simple_bandit env nb eps rand pick rint = some s →
        s.N.sum = (nb : ℝ) ∧ s.hist_A.length = nb ∧ s.hist_R.length = nb) ∧
    (∀ (env : BanditEnv) (nb : ℕ) (alpha : ℝ) (baseline : Bool)
      (pickA : ℕ → ℕ) (s : GradState),
      gradient_bandit env nb alpha baseline pickA = some s →
        s.hist_A.length = nb ∧ s.hist_R.length = nb) ∧
    (∀ (env : BanditEnv) (nb : ℕ) (c : ℝ) (pick : ℕ → ℕ) (s : BanditState),
      env.size < nb → ucb_bandit env nb c pick = some s →
        s.hist_A.length = nb ∧ s.hist_R.length = nb) := by
  refine ⟨?_, ?_, ?_, ?_⟩
  · intro env c pick t s h
    obtain ⟨hA, hR⟩ := ucbAfter_hist_len h
    refine ⟨?_, hA, hR⟩
    rw [(ucbInv_after h).nsum, hA]
  · intro env nb eps rand pick rint s h
    obtain ⟨hA, hR⟩ := simpleIter_hist_len nb 0 h
    simp only [initState, List.length_nil, Nat.zero_add] at hA hR
    refine ⟨?_, hA, hR⟩
    rw [(ucbInv_simple h).nsum, hA]
  · intro env nb alpha baseline pickA s h
    obtain ⟨hA, hR⟩ := gradIter_hist_len nb 0 h
    simp only [gradInit, List.length_nil, Nat.zero_add] at hA hR
    exact ⟨hA, hR⟩
  · intro env nb c pick s hlt h
    rw [ucb_bandit_eq_after] at h
    obtain ⟨-, hA, hR⟩ :
        s.N.sum = ((max env.size nb : ℕ) : ℝ) ∧
        s.hist_A.length = max env.size nb ∧ s.hist_R.length = max env.size nb := by
      obtain ⟨h1, h2⟩ := ucbAfter_hist_len h
      exact ⟨by rw [(ucbInv_after h).nsum, h1], h1, h2⟩
    have hm : max env.size nb = nb := by omega
    rw [hm] at hA hR
    exact ⟨hA, hR⟩

/-- C9: in every `gradient_bandit` run with the baseline flag enabled, after
each step `R_` equals the exact unweighted mean of all rewards observed so
far (and is `0` before any reward); with the flag disabled, `R_` remains `0`
for the entire run. -/
theorem C9_baseline_mean (env : BanditEnv) (nb : ℕ) (alpha : ℝ)
    (baseline : Bool) (pickA : ℕ → ℕ) (s : GradState)
    (h : gradient_bandit env nb alpha baseline pickA = some s) :
    (baseline = true →
      (s.hist_R ≠ [] → s.R_ = s.hist_R.sum / (s.hist_R.length : ℝ)) ∧
      (s.hist_R = [] → s.R_ = 0)) ∧
    (baseline = false → s.R_ = 0) := by
  have inv := gradInv_run h
  constructor
  · intro hb
    obtain ⟨hN, hR, h0⟩ := inv.btrue hb
    refine ⟨?_, h0⟩
    intro hne
    have hlen0 : ((s.hist_R.length : ℕ) : ℝ) ≠ 0 :=
      Nat.cast_ne_zero.mpr (List.length_pos.mpr hne).ne'
    rw [eq_div_iff hlen0]
    exact hR
  · intro hb
    exact (inv.bfalse hb).1

/-- C10: under exact real arithmetic the preference vector of every
`gradient_bandit` run sums to `0` after every step: the increment on the
chosen action exactly cancels the total decrement on the others because the
softmax snapshot sums to `1`. -/
theorem C10_pref_sum_zero (env : BanditEnv) (nb : ℕ) (alpha : ℝ)
    (baseline : Bool) (pickA : ℕ → ℕ) (s : GradState)
    (h : gradient_bandit env nb alpha baseline pickA = some s) :
    s.H.sum = 0 :=
  (gradInv_run h).hsum

/-! ### Concrete-instance helper lemmas and witnesses -/

theorem range_one_eq : List.range 1 = [0] := rfl

theorem argmax_single (x : ℝ) (p : ℕ) : argmax_rand [x] p = some 0 := by
  have hm : ([x] : List ℝ).max? = some x := rfl
  have ht : tiesOf [x] x = [0] := by
    simp [tiesOf, range_one_eq, List.filter_cons]
  simp [argmax_rand, hm, ht, Nat.mod_one]

theorem ucbAfter_bound_step (env : BanditEnv) (c : ℝ) (pick : ℕ → ℕ) (t : ℕ)
    (h : ¬ t + 1 ≤ env.size) :
    ucbAfter env c pick (t + 1) =
      (ucbAfter env c pick t).bind (ucbStep env c pick t) := by
  simp only [ucbAfter, if_neg h]

theorem gradStep_isSome (env : BanditEnv) (alpha : ℝ) (baseline : Bool)
    (pickA : ℕ → ℕ) (t : ℕ) (s : GradState) (hH : s.H ≠ []) (hk : env.size ≠ 0) :
    ∃ s2 : GradState, gradStep env alpha baseline pickA t s = some s2 := by
  cases hg : gradStep env alpha baseline pickA t s with
  | some s2 => exact ⟨s2, rfl⟩
  | none =>
    exfalso
    obtain ⟨pi, hpi⟩ := softmax_isSome hH
    simp only [gradStep, hpi, if_neg hk] at hg
    exact absurd hg (by simp)

/-- Witness for C1: after the single warm-up step of a one-armed UCB run
with constant reward `5`, `Q[0]` equals the mean of the one recorded
reward. -/
theorem C1_incremental_mean_witness :
    (ucbWarmupAux ⟨1, fun _ _ => 5⟩ 1).Q.getD 0 0 =
      (rewardsFor 0 (ucbWarmupAux ⟨1, fun _ _ => 5⟩ 1)).sum /
        ((rewardsFor 0 (ucbWarmupAux ⟨1, fun _ _ => 5⟩ 1)).length : ℝ) :=
  (C1_incremental_mean.1 ⟨1, fun _ _ => 5⟩ 0 (fun _ => 0) 1
    (ucbWarmupAux ⟨1, fun _ _ => 5⟩ 1)
    (ucbAfter_warm ⟨1, fun _ _ => 5⟩ 0 (fun _ => 0) 1 le_rfl) 0
    (by decide)).1
    (by rw [(warmup_hist ⟨1, fun _ _ => 5⟩ 1).1]; simp)

/-- Witness for the amended C2: `ucb_bandit` with `k = 2`, `nb = 1 < k`
still returns the full two-step warm-up state, with two history entries. -/
theorem C2_no_validation_witness :
    ucb_bandit ⟨2, fun _ _ => 0⟩ 1 0 (fun _ => 0) =
      some (ucbWarmupAux ⟨2, fun _ _ => 0⟩ 2) ∧
    (ucbWarmupAux ⟨2, fun _ _ => 0⟩ 2).hist_A.length = 2 :=
  C2_no_validation.1 ⟨2, fun _ _ => 0⟩ 1 0 (fun _ => 0) (by decide)

/-- Witness for C3: the first bound-phase step (`t = 1`) of a one-armed UCB
run selects the unique score maximizer. -/
theorem C3_bound_phase_rule_witness :
    ∃ A : ℕ,
      (banditUpdate (ucbWarmupAux ⟨1, fun _ _ => 0⟩ 1) 0 0).hist_A =
        (ucbWarmupAux ⟨1, fun _ _ => 0⟩ 1).hist_A ++ [A] ∧
      A < (ucbScores 0 1 (ucbWarmupAux ⟨1, fun _ _ => 0⟩ 1).Q
            (ucbWarmupAux ⟨1, fun _ _ => 0⟩ 1).N).length ∧
      ∀ j : ℕ, j < (ucbScores 0 1 (ucbWarmupAux ⟨1, fun _ _ => 0⟩ 1).Q
            (ucbWarmupAux ⟨1, fun _ _ => 0⟩ 1).N).length →
        (ucbScores 0 1 (ucbWarmupAux ⟨1, fun _ _ => 0⟩ 1).Q
            (ucbWarmupAux ⟨1, fun _ _ => 0⟩ 1).N).getD j 0 ≤
        (ucbScores 0 1 (ucbWarmupAux ⟨1, fun _ _ => 0⟩ 1).Q
            (ucbWarmupAux ⟨1, fun _ _ => 0⟩ 1).N).getD A 0 := by
  have h1 : ucbAfter ⟨1, fun _ _ => 0⟩ 0 (fun _ => 0) 1 =
      some (ucbWarmupAux ⟨1, fun _ _ => 0⟩ 1) :=
    ucbAfter_warm ⟨1, fun _ _ => 0⟩ 0 (fun _ => 0) 1 le_rfl
  have harg : argmax_rand (ucbScores 0 1 (ucbWarmupAux ⟨1, fun _ _ => 0⟩ 1).Q
      (ucbWarmupAux ⟨1, fun _ _ => 0⟩ 1).N) ((fun _ => 0) 1) = some 0 :=
    argmax_single _ 0
  have hstep : ucbStep ⟨1, fun _ _ => 0⟩ 0 (fun _ => 0) 1
      (ucbWarmupAux ⟨1, fun _ _ => 0⟩ 1) =
      some (banditUpdate (ucbWarmupAux ⟨1, fun _ _ => 0⟩ 1) 0 0) := by
    simp only [ucbStep, harg]
  have hbs := ucbAfter_bound_step ⟨1, fun _ _ => 0⟩ 0 (fun _ => 0) 1 (by decide)
  norm_num at hbs
  have h2 : ucbAfter ⟨1, fun _ _ => 0⟩ 0 (fun _ => 0) 2 =
      some (banditUpdate (ucbWarmupAux ⟨1, fun _ _ => 0⟩ 1) 0 0) := by
    rw [hbs, h1, Option.some_bind, hstep]
  exact C3_bound_phase_rule ⟨1, fun _ _ => 0⟩ 0 (fun _ => 0) 1 _ _ le_rfl h1 h2

/-- Witness for C4: the first step of a one-armed gradient run is a
length-preserving simultaneous update. -/
theorem C4_simultaneous_update_witness :
    ∃ s2 : GradState,
      gradient_bandit ⟨1, fun _ _ => 0⟩ 1 1 false (fun _ => 0) = some s2 ∧
      s2.H.length = (gradInit 1).H.length := by
  obtain ⟨s2, hs2⟩ := gradStep_isSome ⟨1, fun _ _ => 0⟩ 1 false (fun _ => 0) 0
    (gradInit 1) (by simp [gradInit]) (by decide)
  have h0 : gradient_bandit ⟨1, fun _ _ => 0⟩ 0 1 false (fun _ => 0) =
      some (gradInit 1) := by
    simp [gradient_bandit, gradIter]
  have h1eq := gradient_bandit_succ ⟨1, fun _ _ => 0⟩ 0 1 false (fun _ => 0)
  norm_num at h1eq
  have hrun : gradient_bandit ⟨1, fun _ _ => 0⟩ 1 1 false (fun _ => 0) = some s2 := by
    rw [h1eq, h0, Option.some_bind, hs2]
  obtain ⟨pi, hpi⟩ := softmax_isSome (show (gradInit 1).H ≠ [] from by simp [gradInit])
  have h := C4_simultaneous_update ⟨1, fun _ _ => 0⟩ 1 false (fun _ => 0) 0
    (gradInit 1) s2 pi h0 hrun hpi
  exact ⟨s2, hrun, h.1⟩

/-- Witness for C5 at the spec's example `H = [1000, 0, -1000]`. -/
theorem C5_softmax_validity_witness :
    ∃ p : List ℝ, softmax [1000, 0, -1000] = some p ∧
      p.length = ([1000, 0, -1000] : List ℝ).length ∧
      (∀ v ∈ p, 0 ≤ v ∧ v ≤ 1) ∧ p.sum = 1 :=
  C5_softmax_validity [1000, 0, -1000] (by simp)

/-- Witness for C6 at the spec's example `Q = [5, 5, 5, 1]` with maximum
`5`: the returned index always carries the value `5`. -/
theorem C6_argmax_rand_spec_witness :
    ∃ i : ℕ, argmax_rand [5, 5, 5, 1] 0 = some i ∧
      i < ([5, 5, 5, 1] : List ℝ).length ∧
      ([5, 5, 5, 1] : List ℝ).getD i 0 = 5 ∧
      ∀ j : ℕ, j < ([5, 5, 5, 1] : List ℝ).length →
        ([5, 5, 5, 1] : List ℝ).getD j 0 ≤ ([5, 5, 5, 1] : List ℝ).getD i 0 :=
  (C6_argmax_rand_spec [5, 5, 5, 1] 5 (by norm_num [List.max?, max_def])).1 0

/-- Witness for C7: a one-armed UCB run with `nb = 2 > k = 1`. -/
theorem C7_warmup_complete_witness :
    ∃ s : BanditState, ucbAfter ⟨1, fun _ _ => 0⟩ 0 (fun _ => 0) 1 = some s ∧
      s.hist_A = List.range 1 ∧
      s.hist_R = (List.range 1).map (fun _ => (0 : ℝ)) ∧
      ∀ a : ℕ, a < 1 → s.N.getD a 0 = 1 ∧ s.Q.getD a 0 = 0 :=
  C7_warmup_complete ⟨1, fun _ _ => 0⟩ 0 (fun _ => 0) 2 (by decide)

/-- Witness for C8 at `t = 0` of a one-armed UCB run. -/
theorem C8_conservation_witness :
    (initState 1).N.sum = ((0 : ℕ) : ℝ) ∧
    (initState 1).hist_A.length = 0 ∧ (initState 1).hist_R.length = 0 :=
  C8_conservation.1 ⟨1, fun _ _ => 0⟩ 0 (fun _ => 0) 0 (initState 1) rfl

/-- Witness for C9: before any step of a baseline-off gradient run, `R_`
is `0`. -/
theorem C9_baseline_mean_witness : (gradInit 1).R_ = 0 :=
  (C9_baseline_mean ⟨1, fun _ _ => 0⟩ 0 1 false (fun _ => 0) (gradInit 1)
    (by simp [gradient_bandit, gradIter])).2 rfl

/-- Witness for C10: the initial preference vector of a one-armed gradient
run sums to zero. -/
theorem C10_pref_sum_zero_witness : (gradInit 1).H.sum = 0 :=
  C10_pref_sum_zero ⟨1, fun _ _ => 0⟩ 0 1 true (fun _ => 0) (gradInit 1)
    (by simp [gradient_bandit, gradIter])
